import Mathlib

/-!
Shallow embedding of 9cc.c: a compiler for arithmetic expressions
(integers, `+ - * /`, parentheses) to x86-64 stack-machine assembly.
The pipeline is `tokenize` (lexer), `expr`/`mul`/`primary` (recursive
descent parser over the token list) and `gen` (post-order code
generation).  Errors (`error_at` followed by `exit(1)` in the C source)
are modelled with an `Except` error carrying the byte offset that
`error_at` would point the caret at.  Machine integers: token values go
through `strtol` (a `long`, clamped at `LONG_MAX` on overflow) and are
then assigned to an `int` field, which truncates to 32 bits
two's-complement; this is modelled exactly by `toIntC`.
-/

namespace NineCC

/-- C `isspace`: space, form feed, newline, carriage return, tab, vertical tab. -/
def c_isspace (c : Char) : Bool :=
  c = ' ' || c = '\x0c' || c = '\n' || c = '\x0d' || c = '\t' || c = '\x0b'

/-- `strchr("+-*" ++ "/()", *p)` in `tokenize`: the six punctuator characters. -/
def c_isop (c : Char) : Bool :=
  c = '+' || c = '-' || c = '*' || c = '/' || c = '(' || c = ')'

/-- C `isdigit`. -/
def c_isdigit (c : Char) : Bool :=
  '0' ≤ c && c ≤ '9'

/-- `TokenKind` from 9cc.c. -/
inductive TokenKind where
  | TK_RESERVED
  | TK_NUM
  | TK_EOF
deriving DecidableEq

/-- `struct Token`.  The `next` pointer is replaced by membership in a
`List Token`; `str` (a pointer into `user_input`) is replaced by the byte
offset `pos` together with the character `ch` found there (`str[0]`,
which is all the parser ever reads; for the EOF token `str` points at the
terminating NUL, modelled as `Char.ofNat 0`). -/
structure Token where
  kind : TokenKind
  val : Int
  ch : Char
  pos : Nat
deriving DecidableEq

/-- The fatal errors raised through `error_at` (which prints a caret at
the given byte offset and exits with status 1): the lexer's
"トークナイズ出来ません", `expect`'s "'%c'ではありません" and
`expect_number`'s "数ではありません". -/
inductive CErr where
  | unrecognized (pos : Nat)
  | expectedChar (c : Char) (pos : Nat)
  | expectedNumber (pos : Nat)
deriving DecidableEq

deriving instance DecidableEq for Except

/-- Value of a digit run, most significant first (what `strtol` accumulates
before any overflow handling). -/
def digitsToNat (l : List Char) : Nat :=
  l.foldl (fun a c => a * 10 + (c.toNat - 48)) 0

/-- `strtol(p, &p, 10)` on a digit run followed by assignment to the
`int` field `val`: `strtol` clamps at `LONG_MAX = 2^63 - 1` on overflow,
and the `long` → `int` conversion truncates to 32 bits two's-complement
(the behaviour of the targeted x86-64 C implementations). -/
def toIntC (n : Nat) : Int :=
  let l : Nat := min n (2 ^ 63 - 1)
  let m : Nat := l % 2 ^ 32
  if m < 2 ^ 31 then (m : Int) else (m : Int) - 2 ^ 32

/-- The EOF token appended by `tokenize` once `*p == 0`: `str` points at
the input's terminating NUL (offset = input length, character NUL). -/
def eofTok (pos : Nat) : Token :=
  { kind := .TK_EOF, val := 0, ch := Char.ofNat 0, pos := pos }

/-- `tokenize` from 9cc.c, fuelled so that the recursion is structural
(one unit of fuel per loop iteration; each iteration consumes at least
one input character, so `length + 1` fuel always suffices, see
`tokenizeF_total`).  The scan skips whitespace, turns each punctuator
into one `TK_RESERVED` token, turns each maximal digit run into one
`TK_NUM` token via `strtol`, and fails on any other character; at the
end of the input it appends exactly one `TK_EOF` token. -/
def tokenizeF : Nat → List Char → Nat → Option (Except CErr (List Token))
  | 0, _, _ => none
  | _ + 1, [], pos => some (.ok [eofTok pos])
  | f + 1, c :: rest, pos =>
    if c_isspace c then
      tokenizeF f rest (pos + 1)
    else if c_isop c then
      match tokenizeF f rest (pos + 1) with
      | none => none
      | some (.error e) => some (.error e)
      | some (.ok ts) =>
          some (.ok ({ kind := .TK_RESERVED, val := 0, ch := c, pos := pos } :: ts))
    else if c_isdigit c then
      match tokenizeF f (rest.dropWhile c_isdigit)
          (pos + 1 + (rest.takeWhile c_isdigit).length) with
      | none => none
      | some (.error e) => some (.error e)
      | some (.ok ts) =>
          some (.ok ({ kind := .TK_NUM,
                       val := toIntC (digitsToNat (c :: rest.takeWhile c_isdigit)),
                       ch := c, pos := pos } :: ts))
    else
      some (.error (.unrecognized pos))

theorem length_dropWhile_le (p : Char → Bool) :
    ∀ l : List Char, (l.dropWhile p).length ≤ l.length := by
  intro l
  induction l with
  | nil => simp [List.dropWhile]
  | cons c rest ih =>
    simp only [List.dropWhile]
    by_cases h : p c
    · simp only [h]; simpa using Nat.le_succ_of_le ih
    · simp [h]

theorem tokenizeF_total : ∀ (f : Nat) (s : List Char) (pos : Nat),
    s.length < f → (tokenizeF f s pos).isSome = true := by
  intro f
  induction f with
  | zero => intro s pos h; omega
  | succ f ih =>
    intro s pos h
    match s with
    | [] => simp [tokenizeF]
    | c :: rest =>
      simp only [List.length_cons] at h
      simp only [tokenizeF]
      by_cases hsp : c_isspace c
      · simpa [hsp] using ih rest (pos + 1) (by omega)
      · by_cases hop : c_isop c
        · have := ih rest (pos + 1) (by omega)
          rcases hres : tokenizeF f rest (pos + 1) with _ | r
          · rw [hres] at this; simp at this
          · rcases r with e | ts <;> simp [hsp, hop, hres]
        · by_cases hdg : c_isdigit c
          · have hlen : (rest.dropWhile c_isdigit).length < f := by
              have := length_dropWhile_le c_isdigit rest
              omega
            have := ih (rest.dropWhile c_isdigit)
              (pos + 1 + (rest.takeWhile c_isdigit).length) hlen
            rcases hres : tokenizeF f (rest.dropWhile c_isdigit)
                (pos + 1 + (rest.takeWhile c_isdigit).length) with _ | r
            · rw [hres] at this; simp at this
            · rcases r with e | ts <;> simp [hsp, hop, hdg, hres]
          · simp [hsp, hop, hdg]

/-- Top-level `tokenize()`: runs on `user_input` from offset 0.  It is a
total function (the fuel `s.length + 1` always suffices). -/
def tokenize (s : List Char) : Except CErr (List Token) :=
  (tokenizeF (s.length + 1) s 0).get (tokenizeF_total (s.length + 1) s 0 (by omega))

/-- `consume(op)`: if the current token is the reserved symbol `op`,
advance past it (returning the rest of the token list), otherwise leave
the cursor alone (`none`).  The C code reads `token->kind != TK_RESERVED
|| token->str[0] != op`. -/
def consume (op : Char) : List Token → Option (List Token)
  | [] => none
  | t :: rest => if t.kind = .TK_RESERVED ∧ t.ch = op then some rest else none

/-- `expect(op)`: like `consume` but a mismatch is fatal:
`error_at(token->str, "'%c'ではありません", op)`. -/
def expect (op : Char) : List Token → Except CErr (List Token)
  | [] => .error (.expectedChar op 0)
  | t :: rest =>
    if t.kind = .TK_RESERVED ∧ t.ch = op then .ok rest
    else .error (.expectedChar op t.pos)

/-- `expect_number()`: if the current token is a number, advance and
return its value, else `error_at(token->str, "数ではありません")`. -/
def expect_number : List Token → Except CErr (Int × List Token)
  | [] => .error (.expectedNumber 0)
  | t :: rest =>
    if t.kind = .TK_NUM then .ok (t.val, rest) else .error (.expectedNumber t.pos)

/-- `at_eof()` (defined in 9cc.c; `main` never calls it). -/
def at_eof : List Token → Bool
  | [] => true
  | t :: _ => t.kind = .TK_EOF

/-- `NodeKind` from 9cc.c. -/
inductive NodeKind where
  | ND_ADD
  | ND_SUB
  | ND_MUL
  | ND_DIV
deriving DecidableEq

/-- `struct Node`: `new_num` builds a `num` leaf, `new_binary` an
internal node with exactly two children. -/
inductive Node where
  | num (val : Int)
  | binary (kind : NodeKind) (lhs : Node) (rhs : Node)
deriving DecidableEq

/-- Which of the five parsing routines is running: `expr`, the body of
`expr`'s while-loop (carrying the accumulated left tree), `mul`, the
body of `mul`'s while-loop, and `primary`. -/
inductive PFn where
  | pexpr
  | peLoop (acc : Node)
  | pmul
  | pmLoop (acc : Node)
  | pprim
deriving DecidableEq

/-- The recursive-descent parser of 9cc.c (`expr`, `mul`, `primary` and
the two while-loops inside `expr` and `mul`), fuelled so that the
recursion is structural: one unit of fuel is spent on every call and
every loop iteration.  `parseF_total` proves that `3 * length + 4` fuel
always suffices, so the `none` (out-of-fuel) answer never occurs for the
wrapper `parseProg`.

* `pexpr`:  `expr = mul ("+" mul | "-" mul)*` — parse one `mul`, then loop.
* `peLoop acc`: the `while(true)` loop of `expr`: `consume('+')` /
  `consume('-')` folds `new_binary(ND_ADD/ND_SUB, acc, mul())`, else returns `acc`.
* `pmul`:  `mul = primary ("*" primary | "/" primary)*`.
* `pmLoop acc`: the loop of `mul` over `ND_MUL` / `ND_DIV`.
* `pprim`: `primary = "(" expr ")" | num`. -/
def parseF : Nat → PFn → List Token → Option (Except CErr (Node × List Token))
  | 0, _, _ => none
  | f + 1, fn, ts =>
    match fn with
    | .pexpr =>
      match parseF f .pmul ts with
      | none => none
      | some (.error e) => some (.error e)
      | some (.ok (node, ts1)) => parseF f (.peLoop node) ts1
    | .peLoop node =>
      match consume '+' ts with
      | some ts1 =>
        match parseF f .pmul ts1 with
        | none => none
        | some (.error e) => some (.error e)
        | some (.ok (rhs, ts2)) => parseF f (.peLoop (.binary .ND_ADD node rhs)) ts2
      | none =>
        match consume '-' ts with
        | some ts1 =>
          match parseF f .pmul ts1 with
          | none => none
          | some (.error e) => some (.error e)
          | some (.ok (rhs, ts2)) => parseF f (.peLoop (.binary .ND_SUB node rhs)) ts2
        | none => some (.ok (node, ts))
    | .pmul =>
      match parseF f .pprim ts with
      | none => none
      | some (.error e) => some (.error e)
      | some (.ok (node, ts1)) => parseF f (.pmLoop node) ts1
    | .pmLoop node =>
      match consume '*' ts with
      | some ts1 =>
        match parseF f .pprim ts1 with
        | none => none
        | some (.error e) => some (.error e)
        | some (.ok (rhs, ts2)) => parseF f (.pmLoop (.binary .ND_MUL node rhs)) ts2
      | none =>
        match consume '/' ts with
        | some ts1 =>
          match parseF f .pprim ts1 with
          | none => none
          | some (.error e) => some (.error e)
          | some (.ok (rhs, ts2)) => parseF f (.pmLoop (.binary .ND_DIV node rhs)) ts2
        | none => some (.ok (node, ts))
    | .pprim =>
      match consume '(' ts with
      | some ts1 =>
        match parseF f .pexpr ts1 with
        | none => none
        | some (.error e) => some (.error e)
        | some (.ok (node, ts2)) =>
          match expect ')' ts2 with
          | .error e => some (.error e)
          | .ok ts3 => some (.ok (node, ts3))
      | none =>
        match expect_number ts with
        | .error e => some (.error e)
        | .ok (v, ts1) => some (.ok (.num v, ts1))

theorem consume_eq_some {op : Char} {ts ts1 : List Token}
    (h : consume op ts = some ts1) :
    ∃ t, ts = t :: ts1 ∧ t.kind = .TK_RESERVED ∧ t.ch = op := by
  match ts with
  | [] => simp [consume] at h
  | t :: rest =>
    simp only [consume] at h
    split at h
    · rename_i hc
      cases h
      exact ⟨t, rfl, hc.1, hc.2⟩
    · cases h

theorem expect_eq_ok {op : Char} {ts ts1 : List Token}
    (h : expect op ts = .ok ts1) :
    ∃ t, ts = t :: ts1 ∧ t.kind = .TK_RESERVED ∧ t.ch = op := by
  match ts with
  | [] => simp [expect] at h
  | t :: rest =>
    simp only [expect] at h
    split at h
    · rename_i hc
      cases h
      exact ⟨t, rfl, hc.1, hc.2⟩
    · cases h

theorem expect_number_eq_ok {ts ts1 : List Token} {v : Int}
    (h : expect_number ts = .ok (v, ts1)) :
    ∃ t, ts = t :: ts1 ∧ t.kind = .TK_NUM ∧ t.val = v := by
  match ts with
  | [] => simp [expect_number] at h
  | t :: rest =>
    simp only [expect_number] at h
    split at h
    · rename_i hc
      cases h
      exact ⟨t, rfl, hc, rfl⟩
    · cases h

/-- Fuel sufficiency statement for `primary`, plus: a successful
`primary` consumes at least one token. -/
def TotP (n : Nat) : Prop :=
  ∀ ts : List Token, ts.length ≤ n → ∀ f, 3 * ts.length + 2 ≤ f →
    (parseF f .pprim ts).isSome = true ∧
    ∀ r ts', parseF f .pprim ts = some (.ok (r, ts')) → ts'.length + 1 ≤ ts.length

/-- Fuel sufficiency for the loop of `mul`: it never lengthens the remainder. -/
def TotML (n : Nat) : Prop :=
  ∀ ts : List Token, ts.length ≤ n → ∀ node f, 3 * ts.length + 3 ≤ f →
    (parseF f (.pmLoop node) ts).isSome = true ∧
    ∀ r ts', parseF f (.pmLoop node) ts = some (.ok (r, ts')) → ts'.length ≤ ts.length

/-- Fuel sufficiency for `mul`: success consumes at least one token. -/
def TotM (n : Nat) : Prop :=
  ∀ ts : List Token, ts.length ≤ n → ∀ f, 3 * ts.length + 3 ≤ f →
    (parseF f .pmul ts).isSome = true ∧
    ∀ r ts', parseF f .pmul ts = some (.ok (r, ts')) → ts'.length + 1 ≤ ts.length

/-- Fuel sufficiency for the loop of `expr`. -/
def TotEL (n : Nat) : Prop :=
  ∀ ts : List Token, ts.length ≤ n → ∀ node f, 3 * ts.length + 4 ≤ f →
    (parseF f (.peLoop node) ts).isSome = true ∧
    ∀ r ts', parseF f (.peLoop node) ts = some (.ok (r, ts')) → ts'.length ≤ ts.length

/-- Fuel sufficiency for `expr`: success consumes at least one token. -/
def TotE (n : Nat) : Prop :=
  ∀ ts : List Token, ts.length ≤ n → ∀ f, 3 * ts.length + 4 ≤ f →
    (parseF f .pexpr ts).isSome = true ∧
    ∀ r ts', parseF f .pexpr ts = some (.ok (r, ts')) → ts'.length + 1 ≤ ts.length

/-- All five parsing routines return an answer (success or a parse
error, never the out-of-fuel `none`) whenever the fuel is at least
`3 * (length of the token list) + 4`, because every loop iteration and
every step into a parenthesis consumes at least one token.  Proved by
strong induction on the length of the token list. -/
theorem tot_all : ∀ n, TotP n ∧ TotML n ∧ TotM n ∧ TotEL n ∧ TotE n := by
  intro n
  induction n using Nat.strong_induction_on with
  | _ n IH =>
    have hP : TotP n := by
      intro ts hn f hf
      obtain ⟨f, rfl⟩ : ∃ g, f = g + 1 := ⟨f - 1, by omega⟩
      rcases hc : consume '(' ts with _ | ts1
      · rcases hnum : expect_number ts with e | ⟨v, ts1⟩
        · have hres : parseF (f + 1) .pprim ts = some (.error e) := by
            simp only [parseF, hc, hnum]
          rw [hres]
          exact ⟨rfl, by intro r ts' h; simp at h⟩
        · obtain ⟨t, rfl, -, -⟩ := expect_number_eq_ok hnum
          have hres : parseF (f + 1) .pprim (t :: ts1) = some (.ok (.num v, ts1)) := by
            simp only [parseF, hc, hnum]
          rw [hres]
          refine ⟨rfl, ?_⟩
          intro r ts' h
          simp only [Option.some.injEq, Except.ok.injEq, Prod.mk.injEq] at h
          rw [← h.2]
          simp
      · obtain ⟨t, rfl, -, -⟩ := consume_eq_some hc
        simp only [List.length_cons] at hn hf
        have hE := (IH (n - 1) (by omega)).2.2.2.2 ts1 (by omega) f (by omega)
        rcases hpe : parseF f .pexpr ts1 with _ | r1
        · rw [hpe] at hE; simp at hE
        · rcases r1 with e | ⟨node, ts2⟩
          · have hres : parseF (f + 1) .pprim (t :: ts1) = some (.error e) := by
              simp only [parseF, hc, hpe]
            rw [hres]
            exact ⟨rfl, by intro r ts' h; simp at h⟩
          · have hlen2 : ts2.length + 1 ≤ ts1.length := by
              rw [hpe] at hE; exact hE.2 node ts2 rfl
            rcases hex : expect ')' ts2 with e | ts3
            · have hres : parseF (f + 1) .pprim (t :: ts1) = some (.error e) := by
                simp only [parseF, hc, hpe, hex]
              rw [hres]
              exact ⟨rfl, by intro r ts' h; simp at h⟩
            · obtain ⟨t', ht', -, -⟩ := expect_eq_ok hex
              have hres : parseF (f + 1) .pprim (t :: ts1) = some (.ok (node, ts3)) := by
                simp only [parseF, hc, hpe, hex]
              rw [hres]
              refine ⟨rfl, ?_⟩
              intro r ts' h
              simp only [Option.some.injEq, Except.ok.injEq, Prod.mk.injEq] at h
              rw [← h.2]
              have h3 : ts2.length = ts3.length + 1 := by rw [ht']; simp
              simp only [List.length_cons]
              omega
    have hML : TotML n := by
      have key : ∀ f, ∀ ts : List Token, ts.length ≤ n → ∀ node : Node,
          3 * ts.length + 3 ≤ f →
          (parseF f (.pmLoop node) ts).isSome = true ∧
          ∀ r ts', parseF f (.pmLoop node) ts = some (.ok (r, ts')) →
            ts'.length ≤ ts.length := by
        intro f
        induction f using Nat.strong_induction_on with
        | _ f IHf =>
          intro ts hn node hf
          obtain ⟨f, rfl⟩ : ∃ g, f = g + 1 := ⟨f - 1, by omega⟩
          rcases hc : consume '*' ts with _ | ts1
          · rcases hc2 : consume '/' ts with _ | ts1
            · have hres : parseF (f + 1) (.pmLoop node) ts = some (.ok (node, ts)) := by
                simp only [parseF, hc, hc2]
              rw [hres]
              refine ⟨rfl, ?_⟩
              intro r ts' h
              simp only [Option.some.injEq, Except.ok.injEq, Prod.mk.injEq] at h
              rw [← h.2]
            · obtain ⟨t, rfl, -, -⟩ := consume_eq_some hc2
              simp only [List.length_cons] at hn hf
              have hPr := hP ts1 (by omega) f (by omega)
              rcases hpp : parseF f .pprim ts1 with _ | r1
              · rw [hpp] at hPr; simp at hPr
              · rcases r1 with e | ⟨rhs, ts2⟩
                · have hres : parseF (f + 1) (.pmLoop node) (t :: ts1) =
                      some (.error e) := by
                    simp only [parseF, hc, hc2, hpp]
                  rw [hres]
                  exact ⟨rfl, by intro r ts' h; simp at h⟩
                · have hlen2 : ts2.length + 1 ≤ ts1.length := by
                    rw [hpp] at hPr; exact hPr.2 rhs ts2 rfl
                  have hrec := IHf f (by omega) ts2 (by omega)
                    (.binary .ND_DIV node rhs) (by omega)
                  have hres : parseF (f + 1) (.pmLoop node) (t :: ts1) =
                      parseF f (.pmLoop (.binary .ND_DIV node rhs)) ts2 := by
                    simp only [parseF, hc, hc2, hpp]
                  rw [hres]
                  refine ⟨hrec.1, ?_⟩
                  intro r ts' h
                  have := hrec.2 r ts' h
                  simp only [List.length_cons]
                  omega
          · obtain ⟨t, rfl, -, -⟩ := consume_eq_some hc
            simp only [List.length_cons] at hn hf
            have hPr := hP ts1 (by omega) f (by omega)
            rcases hpp : parseF f .pprim ts1 with _ | r1
            · rw [hpp] at hPr; simp at hPr
            · rcases r1 with e | ⟨rhs, ts2⟩
              · have hres : parseF (f + 1) (.pmLoop node) (t :: ts1) =
                    some (.error e) := by
                  simp only [parseF, hc, hpp]
                rw [hres]
                exact ⟨rfl, by intro r ts' h; simp at h⟩
              · have hlen2 : ts2.length + 1 ≤ ts1.length := by
                  rw [hpp] at hPr; exact hPr.2 rhs ts2 rfl
                have hrec := IHf f (by omega) ts2 (by omega)
                  (.binary .ND_MUL node rhs) (by omega)
                have hres : parseF (f + 1) (.pmLoop node) (t :: ts1) =
                    parseF f (.pmLoop (.binary .ND_MUL node rhs)) ts2 := by
                  simp only [parseF, hc, hpp]
                rw [hres]
                refine ⟨hrec.1, ?_⟩
                intro r ts' h
                have := hrec.2 r ts' h
                simp only [List.length_cons]
                omega
      intro ts hn node f hf
      exact key f ts hn node hf
    have hM : TotM n := by
      intro ts hn f hf
      obtain ⟨f, rfl⟩ : ∃ g, f = g + 1 := ⟨f - 1, by omega⟩
      have hPr := hP ts hn f (by omega)
      rcases hpp : parseF f .pprim ts with _ | r1
      · rw [hpp] at hPr; simp at hPr
      · rcases r1 with e | ⟨node, ts1⟩
        · have hres : parseF (f + 1) .pmul ts = some (.error e) := by
            simp only [parseF, hpp]
          rw [hres]
          exact ⟨rfl, by intro r ts' h; simp at h⟩
        · have hlen1 : ts1.length + 1 ≤ ts.length := by
            rw [hpp] at hPr; exact hPr.2 node ts1 rfl
          have hMLr := hML ts1 (by omega) node f (by omega)
          have hres : parseF (f + 1) .pmul ts = parseF f (.pmLoop node) ts1 := by
            simp only [parseF, hpp]
          rw [hres]
          refine ⟨hMLr.1, ?_⟩
          intro r ts' h
          have := hMLr.2 r ts' h
          omega
    have hEL : TotEL n := by
      have key : ∀ f, ∀ ts : List Token, ts.length ≤ n → ∀ node : Node,
          3 * ts.length + 4 ≤ f →
          (parseF f (.peLoop node) ts).isSome = true ∧
          ∀ r ts', parseF f (.peLoop node) ts = some (.ok (r, ts')) →
            ts'.length ≤ ts.length := by
        intro f
        induction f using Nat.strong_induction_on with
        | _ f IHf =>
          intro ts hn node hf
          obtain ⟨f, rfl⟩ : ∃ g, f = g + 1 := ⟨f - 1, by omega⟩
          rcases hc : consume '+' ts with _ | ts1
          · rcases hc2 : consume '-' ts with _ | ts1
            · have hres : parseF (f + 1) (.peLoop node) ts = some (.ok (node, ts)) := by
                simp only [parseF, hc, hc2]
              rw [hres]
              refine ⟨rfl, ?_⟩
              intro r ts' h
              simp only [Option.some.injEq, Except.ok.injEq, Prod.mk.injEq] at h
              rw [← h.2]
            · obtain ⟨t, rfl, -, -⟩ := consume_eq_some hc2
              simp only [List.length_cons] at hn hf
              have hMr := hM ts1 (by omega) f (by omega)
              rcases hpm : parseF f .pmul ts1 with _ | r1
              · rw [hpm] at hMr; simp at hMr
              · rcases r1 with e | ⟨rhs, ts2⟩
                · have hres : parseF (f + 1) (.peLoop node) (t :: ts1) =
                      some (.error e) := by
                    simp only [parseF, hc, hc2, hpm]
                  rw [hres]
                  exact ⟨rfl, by intro r ts' h; simp at h⟩
                · have hlen2 : ts2.length + 1 ≤ ts1.length := by
                    rw [hpm] at hMr; exact hMr.2 rhs ts2 rfl
                  have hrec := IHf f (by omega) ts2 (by omega)
                    (.binary .ND_SUB node rhs) (by omega)
                  have hres : parseF (f + 1) (.peLoop node) (t :: ts1) =
                      parseF f (.peLoop (.binary .ND_SUB node rhs)) ts2 := by
                    simp only [parseF, hc, hc2, hpm]
                  rw [hres]
                  refine ⟨hrec.1, ?_⟩
                  intro r ts' h
                  have := hrec.2 r ts' h
                  simp only [List.length_cons]
                  omega
          · obtain ⟨t, rfl, -, -⟩ := consume_eq_some hc
            simp only [List.length_cons] at hn hf
            have hMr := hM ts1 (by omega) f (by omega)
            rcases hpm : parseF f .pmul ts1 with _ | r1
            · rw [hpm] at hMr; simp at hMr
            · rcases r1 with e | ⟨rhs, ts2⟩
              · have hres : parseF (f + 1) (.peLoop node) (t :: ts1) =
                    some (.error e) := by
                  simp only [parseF, hc, hpm]
                rw [hres]
                exact ⟨rfl, by intro r ts' h; simp at h⟩
              · have hlen2 : ts2.length + 1 ≤ ts1.length := by
                  rw [hpm] at hMr; exact hMr.2 rhs ts2 rfl
                have hrec := IHf f (by omega) ts2 (by omega)
                  (.binary .ND_ADD node rhs) (by omega)
                have hres : parseF (f + 1) (.peLoop node) (t :: ts1) =
                    parseF f (.peLoop (.binary .ND_ADD node rhs)) ts2 := by
                  simp only [parseF, hc, hpm]
                rw [hres]
                refine ⟨hrec.1, ?_⟩
                intro r ts' h
                have := hrec.2 r ts' h
                simp only [List.length_cons]
                omega
      intro ts hn node f hf
      exact key f ts hn node hf
    have hE : TotE n := by
      intro ts hn f hf
      obtain ⟨f, rfl⟩ : ∃ g, f = g + 1 := ⟨f - 1, by omega⟩
      have hMr := hM ts hn f (by omega)
      rcases hpm : parseF f .pmul ts with _ | r1
      · rw [hpm] at hMr; simp at hMr
      · rcases r1 with e | ⟨node, ts1⟩
        · have hres : parseF (f + 1) .pexpr ts = some (.error e) := by
            simp only [parseF, hpm]
          rw [hres]
          exact ⟨rfl, by intro r ts' h; simp at h⟩
        · have hlen1 : ts1.length + 1 ≤ ts.length := by
            rw [hpm] at hMr; exact hMr.2 node ts1 rfl
          have hELr := hEL ts1 (by omega) node f (by omega)
          have hres : parseF (f + 1) .pexpr ts = parseF f (.peLoop node) ts1 := by
            simp only [parseF, hpm]
          rw [hres]
          refine ⟨hELr.1, ?_⟩
          intro r ts' h
          have := hELr.2 r ts' h
          omega
    exact ⟨hP, hML, hM, hEL, hE⟩

/-- `expr` answers (successfully or with a parse error) on fuel
`3 * length + 4` for every token list. -/
theorem parse_total (ts : List Token) :
    (parseF (3 * ts.length + 4) .pexpr ts).isSome = true :=
  ((tot_all ts.length).2.2.2.2 ts le_rfl (3 * ts.length + 4) le_rfl).1

/-- The call `expr()` made by `main` on the token list: total thanks to
`parse_total`; returns the resulting tree and the (unchecked) remaining
token list. -/
def parseProg (ts : List Token) : Except CErr (Node × List Token) :=
  (parseF (3 * ts.length + 4) .pexpr ts).get (parse_total ts)

/-- The assembly instructions printed by `gen` and by `main`'s epilogue. -/
inductive Instr where
  | pushImm (v : Int)
  | popRdi
  | popRax
  | addRaxRdi
  | subRaxRdi
  | imulRaxRdi
  | cqo
  | idivRdi
  | pushRax
  | ret
deriving DecidableEq

/-- The instruction(s) printed by the `switch (node->kind)` in `gen`:
`add rax, rdi` / `sub rax, rdi` / `imul rax, rdi` / `cqo` then `idiv rdi`. -/
def opInstrs : NodeKind → List Instr
  | .ND_ADD => [.addRaxRdi]
  | .ND_SUB => [.subRaxRdi]
  | .ND_MUL => [.imulRaxRdi]
  | .ND_DIV => [.cqo, .idivRdi]

/-- `gen` from 9cc.c: a number pushes its value; an operator node
generates its left then its right subtree, pops the right operand into
`rdi` and the left into `rax`, performs the operation, and pushes `rax`. -/
def gen : Node → List Instr
  | .num v => [.pushImm v]
  | .binary k lhs rhs =>
    gen lhs ++ gen rhs ++ [.popRdi, .popRax] ++ opInstrs k ++ [.pushRax]

/-- Exact-integer evaluation of an AST; division is `Int.tdiv`
(truncation toward zero, the semantics of x86-64 `idiv`). -/
def evalNode : Node → Int
  | .num v => v
  | .binary .ND_ADD lhs rhs => evalNode lhs + evalNode rhs
  | .binary .ND_SUB lhs rhs => evalNode lhs - evalNode rhs
  | .binary .ND_MUL lhs rhs => evalNode lhs * evalNode rhs
  | .binary .ND_DIV lhs rhs => Int.tdiv (evalNode lhs) (evalNode rhs)

/-- No division node divides by zero (a zero divisor makes the real
`idiv` fault, and makes our machine's `idivRdi` step return `none`). -/
def divSafe : Node → Bool
  | .num _ => true
  | .binary k lhs rhs =>
    divSafe lhs && divSafe rhs &&
      (decide (k ≠ NodeKind.ND_DIV) || decide (evalNode rhs ≠ 0))

/-- Machine state for the stack-machine code: the evaluation stack and
the three registers the generated code touches. -/
structure MState where
  stack : List Int
  rax : Int
  rdi : Int
  rdx : Int
deriving DecidableEq

/-- What `cqo` writes into `rdx`: the sign extension of `rax`
(all-ones, i.e. `-1`, for a negative `rax`, else `0`). -/
def signExtQ (v : Int) : Int := if v < 0 then -1 else 0

/-- One instruction.  `pop` on an empty stack is a fault (`none`).
`idiv rdi` divides the double-width `rdx:rax` by `rdi`: we model the
dividend as representable only when `rdx` is the sign extension of
`rax` (which is what the preceding `cqo` establishes), and treat a zero
divisor or a non-sign-extended `rdx` as a fault; quotient goes to `rax`
(truncated toward zero), remainder to `rdx`. -/
def step : Instr → MState → Option MState
  | .pushImm v, s => some { s with stack := v :: s.stack }
  | .popRdi, s =>
    match s.stack with
    | [] => none
    | v :: rest => some { s with rdi := v, stack := rest }
  | .popRax, s =>
    match s.stack with
    | [] => none
    | v :: rest => some { s with rax := v, stack := rest }
  | .addRaxRdi, s => some { s with rax := s.rax + s.rdi }
  | .subRaxRdi, s => some { s with rax := s.rax - s.rdi }
  | .imulRaxRdi, s => some { s with rax := s.rax * s.rdi }
  | .cqo, s => some { s with rdx := signExtQ s.rax }
  | .idivRdi, s =>
    if s.rdi = 0 ∨ s.rdx ≠ signExtQ s.rax then none
    else some { s with rax := Int.tdiv s.rax s.rdi, rdx := Int.tmod s.rax s.rdi }
  | .pushRax, s => some { s with stack := s.rax :: s.stack }
  | .ret, s => some s

def runInstrs : List Instr → MState → Option MState
  | [], s => some s
  | i :: rest, s =>
    match step i s with
    | none => none
    | some s' => runInstrs rest s'

def initState : MState := { stack := [], rax := 0, rdi := 0, rdx := 0 }

/-- `main` after the `argc` check: lex, parse one `expr`, then output
the assembly — a fixed prologue (`.intel_syntax noprefix`,
`.global main`, `main:`), the instructions from `gen`, and the epilogue
`pop rax` / `ret`.  A lex or parse error exits with status 1 before
anything is printed to stdout (`.ok` here corresponds to exit status 0
with the assembly printed, `.error` to exit status 1 with no assembly).
The remaining token list returned by `expr` is discarded without any
`at_eof` check. -/
def compileMain (s : List Char) : Except CErr (List Instr) :=
  match tokenize s with
  | .error e => .error e
  | .ok toks =>
    match parseProg toks with
    | .error e => .error e
    | .ok (node, _rest) => .ok (gen node ++ [.popRax, .ret])

/-- Run the compiled program: execute the emitted instructions from an
empty stack; after the final `pop rax` the expression's value is the
function's return value in `rax`. -/
def execMain (s : List Char) : Option Int :=
  match compileMain s with
  | .error _ => none
  | .ok ins =>
    match runInstrs ins initState with
    | none => none
    | some st => some st.rax

theorem runInstrs_append (a b : List Instr) (s : MState) :
    runInstrs (a ++ b) s = (runInstrs a s).bind (fun s' => runInstrs b s') := by
  induction a generalizing s with
  | nil => simp [runInstrs]
  | cons i rest ih =>
    simp only [List.cons_append, runInstrs]
    cases step i s with
    | none => rfl
    | some s' => exact ih s'

theorem run_tail_add (er el : Int) (stk : List Int) (a d x : Int) :
    runInstrs ([.popRdi, .popRax] ++ opInstrs .ND_ADD ++ [.pushRax])
      ⟨er :: el :: stk, a, d, x⟩ = some ⟨(el + er) :: stk, el + er, er, x⟩ := rfl

theorem run_tail_sub (er el : Int) (stk : List Int) (a d x : Int) :
    runInstrs ([.popRdi, .popRax] ++ opInstrs .ND_SUB ++ [.pushRax])
      ⟨er :: el :: stk, a, d, x⟩ = some ⟨(el - er) :: stk, el - er, er, x⟩ := rfl

theorem run_tail_mul (er el : Int) (stk : List Int) (a d x : Int) :
    runInstrs ([.popRdi, .popRax] ++ opInstrs .ND_MUL ++ [.pushRax])
      ⟨er :: el :: stk, a, d, x⟩ = some ⟨(el * er) :: stk, el * er, er, x⟩ := rfl

theorem run_tail_div (er el : Int) (stk : List Int) (a d x : Int) (h : er ≠ 0) :
    runInstrs ([.popRdi, .popRax] ++ opInstrs .ND_DIV ++ [.pushRax])
      ⟨er :: el :: stk, a, d, x⟩ =
      some ⟨Int.tdiv el er :: stk, Int.tdiv el er, er, Int.tmod el er⟩ := by
  simp [runInstrs, step, opInstrs, signExtQ, h]

/-- The compositional stack-effect property of `gen`: from any machine
state, the code generated for a subtree runs without faulting (given no
division by zero), pushes exactly the subtree's value on top of the
stack, and leaves every value that was on the stack before untouched
underneath. -/
theorem gen_stack : ∀ (node : Node), divSafe node = true → ∀ st : MState,
    ∃ st', runInstrs (gen node) st = some st' ∧
      st'.stack = evalNode node :: st.stack := by
  intro node
  induction node with
  | num v =>
    intro h st
    exact ⟨{ st with stack := v :: st.stack }, by simp [gen, runInstrs, step], rfl⟩
  | binary k lhs rhs ihl ihr =>
    intro h st
    simp only [divSafe, Bool.and_eq_true, Bool.or_eq_true, decide_eq_true_eq] at h
    obtain ⟨⟨hl, hr⟩, hk⟩ := h
    obtain ⟨st1, h1, hs1⟩ := ihl hl st
    obtain ⟨st2, h2, hs2⟩ := ihr hr st1
    rw [hs1] at hs2
    obtain ⟨stk2, a2, d2, x2⟩ := st2
    simp only at hs2
    subst hs2
    have hsplit : gen (.binary k lhs rhs) =
        gen lhs ++ (gen rhs ++ ([.popRdi, .popRax] ++ opInstrs k ++ [.pushRax])) := by
      simp [gen, List.append_assoc]
    rw [hsplit, runInstrs_append, h1, Option.some_bind, runInstrs_append, h2,
      Option.some_bind]
    cases k with
    | ND_ADD => exact ⟨_, run_tail_add _ _ _ _ _ _, rfl⟩
    | ND_SUB => exact ⟨_, run_tail_sub _ _ _ _ _ _, rfl⟩
    | ND_MUL => exact ⟨_, run_tail_mul _ _ _ _ _ _, rfl⟩
    | ND_DIV =>
      have hnz : evalNode rhs ≠ 0 := by
        rcases hk with hk | hk
        · exact absurd rfl hk
        · exact hk
      exact ⟨_, run_tail_div _ _ _ _ _ _ hnz, rfl⟩

mutual
/-- Token sequences derivable from the grammar rule
`primary = "(" expr ")" | num`, together with their mathematical value.
This (with `GM`/`GE`) is the specification side of claim C1: it encodes
"the mathematical value of the expression under standard precedence and
left-associativity" independently of the parser, following the spec's
EBNF grammar. -/
inductive GP : List Token → Int → Prop where
  | num : ∀ t : Token, t.kind = .TK_NUM → GP [t] t.val
  | paren : ∀ (l r : Token) (e : List Token) (v : Int),
      l.kind = .TK_RESERVED → l.ch = '(' →
      r.kind = .TK_RESERVED → r.ch = ')' →
      GE e v → GP (l :: (e ++ [r])) v

/-- `("*" primary | "/" primary)*` continuations: `GMt acc ts w` means
the tail `ts` extends an accumulated left value `acc` to the value `w`,
folding left-to-right; `/` is truncated (toward-zero) division. -/
inductive GMt : Int → List Token → Int → Prop where
  | nil : ∀ acc, GMt acc [] acc
  | mulStep : ∀ (t : Token) (p ts : List Token) (v w acc : Int),
      t.kind = .TK_RESERVED → t.ch = '*' →
      GP p v → GMt (acc * v) ts w → GMt acc (t :: (p ++ ts)) w
  | divStep : ∀ (t : Token) (p ts : List Token) (v w acc : Int),
      t.kind = .TK_RESERVED → t.ch = '/' →
      GP p v → GMt (Int.tdiv acc v) ts w → GMt acc (t :: (p ++ ts)) w

/-- `mul = primary ("*" primary | "/" primary)*`. -/
inductive GM : List Token → Int → Prop where
  | mk : ∀ (p ts : List Token) (v w : Int), GP p v → GMt v ts w → GM (p ++ ts) w

/-- `("+" mul | "-" mul)*` continuations, folding left-to-right. -/
inductive GEt : Int → List Token → Int → Prop where
  | nil : ∀ acc, GEt acc [] acc
  | addStep : ∀ (t : Token) (m ts : List Token) (v w acc : Int),
      t.kind = .TK_RESERVED → t.ch = '+' →
      GM m v → GEt (acc + v) ts w → GEt acc (t :: (m ++ ts)) w
  | subStep : ∀ (t : Token) (m ts : List Token) (v w acc : Int),
      t.kind = .TK_RESERVED → t.ch = '-' →
      GM m v → GEt (acc - v) ts w → GEt acc (t :: (m ++ ts)) w

/-- `expr = mul ("+" mul | "-" mul)*`: the well-formed expression token
sequences with their mathematical value. -/
inductive GE : List Token → Int → Prop where
  | mk : ∀ (m ts : List Token) (v w : Int), GM m v → GEt v ts w → GE (m ++ ts) w
end

/-- The loop of `mul` stops in front of `rest`: its first token (if
any) is not the reserved symbol `*` or `/`. -/
def stopsMul : List Token → Prop
  | [] => True
  | t :: _ => ¬(t.kind = TokenKind.TK_RESERVED ∧ (t.ch = '*' ∨ t.ch = '/'))

/-- The loop of `expr` stops in front of `rest`. -/
def stopsExpr : List Token → Prop
  | [] => True
  | t :: _ => ¬(t.kind = TokenKind.TK_RESERVED ∧ (t.ch = '+' ∨ t.ch = '-'))

theorem consume_none_mul {ts : List Token} (h : stopsMul ts) :
    consume '*' ts = none ∧ consume '/' ts = none := by
  match ts with
  | [] => exact ⟨rfl, rfl⟩
  | t :: rest =>
    simp only [stopsMul, not_and, not_or] at h
    constructor <;>
    · simp only [consume, ite_eq_right_iff]
      intro hc
      by_cases hk : t.kind = TokenKind.TK_RESERVED
      · exact absurd hc.2 (by have := h hk; tauto)
      · exact absurd hc.1 hk

theorem consume_none_expr {ts : List Token} (h : stopsExpr ts) :
    consume '+' ts = none ∧ consume '-' ts = none := by
  match ts with
  | [] => exact ⟨rfl, rfl⟩
  | t :: rest =>
    simp only [stopsExpr, not_and, not_or] at h
    constructor <;>
    · simp only [consume, ite_eq_right_iff]
      intro hc
      by_cases hk : t.kind = TokenKind.TK_RESERVED
      · exact absurd hc.2 (by have := h hk; tauto)
      · exact absurd hc.1 hk

theorem GEt_stopsMul {acc w : Int} {ts rest : List Token}
    (h : GEt acc ts w) (hr : stopsMul rest) : stopsMul (ts ++ rest) := by
  cases h with
  | nil => simpa using hr
  | addStep t m ts2 v w acc hk hc _ _ =>
    simp [stopsMul, hc]
  | subStep t m ts2 v w acc hk hc _ _ =>
    simp [stopsMul, hc]

theorem GP_length {ts : List Token} {v : Int} (h : GP ts v) : 1 ≤ ts.length := by
  cases h <;> simp

theorem GM_length {ts : List Token} {v : Int} (h : GM ts v) : 1 ≤ ts.length := by
  cases h with
  | mk p ts2 v w hp ht =>
    have := GP_length hp
    simp only [List.length_append]
    omega

/-- Soundness statement for `primary` against grammar rule `GP`. -/
def SndP (n : Nat) : Prop :=
  ∀ ts v, GP ts v → ts.length ≤ n → ∀ (rest : List Token) (f : Nat),
    3 * ts.length + 2 ≤ f →
    ∃ ast, parseF f .pprim (ts ++ rest) = some (.ok (ast, rest)) ∧ evalNode ast = v

/-- Soundness for the loop of `mul` against `GMt`. -/
def SndMt (n : Nat) : Prop :=
  ∀ acc ts w, GMt acc ts w → ts.length ≤ n → ∀ node : Node, evalNode node = acc →
    ∀ (rest : List Token) (f : Nat), stopsMul rest → 3 * ts.length + 3 ≤ f →
    ∃ ast, parseF f (.pmLoop node) (ts ++ rest) = some (.ok (ast, rest)) ∧
      evalNode ast = w

/-- Soundness for `mul` against `GM`. -/
def SndM (n : Nat) : Prop :=
  ∀ ts w, GM ts w → ts.length ≤ n → ∀ (rest : List Token) (f : Nat),
    stopsMul rest → 3 * ts.length + 3 ≤ f →
    ∃ ast, parseF f .pmul (ts ++ rest) = some (.ok (ast, rest)) ∧ evalNode ast = w

/-- Soundness for the loop of `expr` against `GEt`. -/
def SndEt (n : Nat) : Prop :=
  ∀ acc ts w, GEt acc ts w → ts.length ≤ n → ∀ node : Node, evalNode node = acc →
    ∀ (rest : List Token) (f : Nat), stopsExpr rest → stopsMul rest →
    3 * ts.length + 4 ≤ f →
    ∃ ast, parseF f (.peLoop node) (ts ++ rest) = some (.ok (ast, rest)) ∧
      evalNode ast = w

/-- Soundness for `expr` against `GE`. -/
def SndE (n : Nat) : Prop :=
  ∀ ts w, GE ts w → ts.length ≤ n → ∀ (rest : List Token) (f : Nat),
    stopsExpr rest → stopsMul rest → 3 * ts.length + 4 ≤ f →
    ∃ ast, parseF f .pexpr (ts ++ rest) = some (.ok (ast, rest)) ∧ evalNode ast = w

/-- Parser soundness: on any token sequence in the grammar followed by
a sequence that does not continue it, each parsing routine succeeds,
consumes exactly the grammatical part, and produces a tree whose exact
integer evaluation is the grammar's value.  By strong induction on the
length of the grammatical part. -/
theorem snd_all : ∀ n, SndP n ∧ SndMt n ∧ SndM n ∧ SndEt n ∧ SndE n := by
  intro n
  induction n using Nat.strong_induction_on with
  | _ n IH =>
    have hP : SndP n := by
      intro ts v hgp hn rest f hf
      obtain ⟨f, rfl⟩ : ∃ g, f = g + 1 := ⟨f - 1, by omega⟩
      cases hgp with
      | num t hk =>
        have hcon : consume '(' (t :: rest) = none := by
          simp [consume, hk]
        have hnum : expect_number (t :: rest) = .ok (t.val, rest) := by
          simp [expect_number, hk]
        refine ⟨.num t.val, ?_, rfl⟩
        rw [List.singleton_append]
        simp [parseF, hcon, hnum]
      | paren l r e v hlk hlc hrk hrc hge =>
        simp only [List.length_cons, List.length_append, List.length_singleton]
          at hn hf
        have hcon : consume '(' (l :: (e ++ (r :: rest))) = some (e ++ (r :: rest)) := by
          simp [consume, hlk, hlc]
        have hse : stopsExpr (r :: rest) := by simp [stopsExpr, hrc]
        have hsm : stopsMul (r :: rest) := by simp [stopsMul, hrc]
        obtain ⟨ast, hpe, hev⟩ := (IH (n - 1) (by omega)).2.2.2.2 e v hge (by omega)
          (r :: rest) f hse hsm (by omega)
        have hexp : expect ')' (r :: rest) = .ok rest := by
          simp [expect, hrk, hrc]
        refine ⟨ast, ?_, hev⟩
        simp only [List.cons_append, List.append_assoc, List.singleton_append,
          List.nil_append]
        simp only [parseF, hcon, hpe, hexp]
    have hMt : SndMt n := by
      intro acc ts w hgmt hn node hev rest f hsm hf
      obtain ⟨f, rfl⟩ : ∃ g, f = g + 1 := ⟨f - 1, by omega⟩
      cases hgmt with
      | nil =>
        obtain ⟨h1, h2⟩ := consume_none_mul hsm
        refine ⟨node, ?_, hev⟩
        rw [List.nil_append]
        simp [parseF, h1, h2]
      | mulStep t p ts2 v w acc hk hc hp hrec =>
        simp only [List.length_cons, List.length_append] at hn hf
        have hplen := GP_length hp
        have hcon : consume '*' (t :: (p ++ (ts2 ++ rest))) = some (p ++ (ts2 ++ rest)) := by
          simp [consume, hk, hc]
        obtain ⟨past, hpp, hpev⟩ := hP p v hp (by omega) (ts2 ++ rest) f (by omega)
        obtain ⟨ast, hml, hfin⟩ := (IH (n - 1) (by omega)).2.1 (acc * v) ts2 w hrec
          (by omega) (.binary .ND_MUL node past) (by simp [evalNode, hev, hpev])
          rest f hsm (by omega)
        refine ⟨ast, ?_, hfin⟩
        simp only [List.cons_append, List.append_assoc]
        simp only [parseF, hcon, hpp]
        exact hml
      | divStep t p ts2 v w acc hk hc hp hrec =>
        simp only [List.length_cons, List.length_append] at hn hf
        have hplen := GP_length hp
        have hcon2 : consume '*' (t :: (p ++ (ts2 ++ rest))) = none := by
          simp [consume, hc]
        have hcon : consume '/' (t :: (p ++ (ts2 ++ rest))) = some (p ++ (ts2 ++ rest)) := by
          simp [consume, hk, hc]
        obtain ⟨past, hpp, hpev⟩ := hP p v hp (by omega) (ts2 ++ rest) f (by omega)
        obtain ⟨ast, hml, hfin⟩ := (IH (n - 1) (by omega)).2.1 (Int.tdiv acc v) ts2 w hrec
          (by omega) (.binary .ND_DIV node past) (by simp [evalNode, hev, hpev])
          rest f hsm (by omega)
        refine ⟨ast, ?_, hfin⟩
        simp only [List.cons_append, List.append_assoc]
        simp only [parseF, hcon2, hcon, hpp]
        exact hml
    have hM : SndM n := by
      intro ts w hgm hn rest f hsm hf
      obtain ⟨f, rfl⟩ : ∃ g, f = g + 1 := ⟨f - 1, by omega⟩
      cases hgm with
      | mk p ts2 v w hp ht =>
        simp only [List.length_append] at hn hf
        have hplen := GP_length hp
        obtain ⟨past, hpp, hpev⟩ := hP p v hp (by omega) (ts2 ++ rest) f (by omega)
        obtain ⟨ast, hml, hfin⟩ := hMt v ts2 w ht (by omega) past hpev rest f hsm
          (by omega)
        refine ⟨ast, ?_, hfin⟩
        simp only [List.append_assoc]
        simp only [parseF, hpp]
        exact hml
    have hEt : SndEt n := by
      intro acc ts w hget hn node hev rest f hse hsm hf
      obtain ⟨f, rfl⟩ : ∃ g, f = g + 1 := ⟨f - 1, by omega⟩
      cases hget with
      | nil =>
        obtain ⟨h1, h2⟩ := consume_none_expr hse
        refine ⟨node, ?_, hev⟩
        rw [List.nil_append]
        simp [parseF, h1, h2]
      | addStep t m ts2 v w acc hk hc hm hrec =>
        simp only [List.length_cons, List.length_append] at hn hf
        have hmlen := GM_length hm
        have hcon : consume '+' (t :: (m ++ (ts2 ++ rest))) = some (m ++ (ts2 ++ rest)) := by
          simp [consume, hk, hc]
        have hsm2 : stopsMul (ts2 ++ rest) := GEt_stopsMul hrec hsm
        obtain ⟨past, hpm, hpev⟩ := hM m v hm (by omega) (ts2 ++ rest) f hsm2 (by omega)
        obtain ⟨ast, hel, hfin⟩ := (IH (n - 1) (by omega)).2.2.2.1 (acc + v) ts2 w hrec
          (by omega) (.binary .ND_ADD node past) (by simp [evalNode, hev, hpev])
          rest f hse hsm (by omega)
        refine ⟨ast, ?_, hfin⟩
        simp only [List.cons_append, List.append_assoc]
        simp only [parseF, hcon, hpm]
        exact hel
      | subStep t m ts2 v w acc hk hc hm hrec =>
        simp only [List.length_cons, List.length_append] at hn hf
        have hmlen := GM_length hm
        have hcon2 : consume '+' (t :: (m ++ (ts2 ++ rest))) = none := by
          simp [consume, hc]
        have hcon : consume '-' (t :: (m ++ (ts2 ++ rest))) = some (m ++ (ts2 ++ rest)) := by
          simp [consume, hk, hc]
        have hsm2 : stopsMul (ts2 ++ rest) := GEt_stopsMul hrec hsm
        obtain ⟨past, hpm, hpev⟩ := hM m v hm (by omega) (ts2 ++ rest) f hsm2 (by omega)
        obtain ⟨ast, hel, hfin⟩ := (IH (n - 1) (by omega)).2.2.2.1 (acc - v) ts2 w hrec
          (by omega) (.binary .ND_SUB node past) (by simp [evalNode, hev, hpev])
          rest f hse hsm (by omega)
        refine ⟨ast, ?_, hfin⟩
        simp only [List.cons_append, List.append_assoc]
        simp only [parseF, hcon2, hcon, hpm]
        exact hel
    have hE : SndE n := by
      intro ts w hge hn rest f hse hsm hf
      obtain ⟨f, rfl⟩ : ∃ g, f = g + 1 := ⟨f - 1, by omega⟩
      cases hge with
      | mk m ts2 v w hm ht =>
        simp only [List.length_append] at hn hf
        have hmlen := GM_length hm
        have hsm2 : stopsMul (ts2 ++ rest) := GEt_stopsMul ht hsm
        obtain ⟨past, hpm, hpev⟩ := hM m v hm (by omega) (ts2 ++ rest) f hsm2 (by omega)
        obtain ⟨ast, hel, hfin⟩ := hEt v ts2 w ht (by omega) past hpev rest f hse hsm
          (by omega)
        refine ⟨ast, ?_, hfin⟩
        simp only [List.append_assoc]
        simp only [parseF, hpm]
        exact hel
    exact ⟨hP, hMt, hM, hEt, hE⟩

/-- A character the lexer can consume: whitespace, a punctuator, or a digit. -/
def recognized (c : Char) : Bool := c_isspace c || c_isop c || c_isdigit c

/-- Byte offset (relative to the start of the list) of the first
character that is neither whitespace, a punctuator, nor a digit;
`none` when every character is recognized. -/
def firstUnrec : List Char → Option Nat
  | [] => none
  | c :: rest => if recognized c then (firstUnrec rest).map (· + 1) else some 0

theorem takeWhile_all {p : Char → Bool} :
    ∀ l : List Char, (∀ c ∈ l, p c = true) → l.takeWhile p = l := by
  intro l h
  induction l with
  | nil => rfl
  | cons c rest ih =>
    have hc : p c = true := h c (by simp)
    simp only [List.takeWhile, hc]
    rw [ih (fun d hd => h d (by simp [hd]))]

theorem dropWhile_all {p : Char → Bool} :
    ∀ l : List Char, (∀ c ∈ l, p c = true) → l.dropWhile p = [] := by
  intro l h
  induction l with
  | nil => rfl
  | cons c rest ih =>
    have hc : p c = true := h c (by simp)
    simp only [List.dropWhile, hc]
    exact ih (fun d hd => h d (by simp [hd]))

theorem mem_takeWhile_p {p : Char → Bool} :
    ∀ (l : List Char) (c : Char), c ∈ l.takeWhile p → p c = true := by
  intro l
  induction l with
  | nil => intro c h; simp [List.takeWhile] at h
  | cons d rest ih =>
    intro c h
    by_cases hd : p d
    · simp only [List.takeWhile, hd] at h
      rcases List.mem_cons.mp h with rfl | h2
      · exact hd
      · exact ih c h2
    · simp only [List.takeWhile] at h
      rw [Bool.of_not_eq_true hd] at h
      simp at h

theorem map_add_eq_none {o : Option Nat} {k : Nat}
    (h : o.map (· + k) = none) : o = none := by
  cases o with
  | none => rfl
  | some j => simp at h

theorem firstUnrec_append_recognized :
    ∀ (l r : List Char), (∀ c ∈ l, recognized c = true) →
      firstUnrec (l ++ r) = (firstUnrec r).map (· + l.length) := by
  intro l
  induction l with
  | nil =>
    intro r _
    simp only [List.nil_append, List.length_nil]
    cases firstUnrec r <;> simp
  | cons c rest ih =>
    intro r h
    have hc : recognized c = true := h c (by simp)
    rw [List.cons_append]
    show (if recognized c then (firstUnrec (rest ++ r)).map (· + 1) else some 0) = _
    rw [hc, if_pos rfl, ih r (fun d hd => h d (by simp [hd]))]
    cases firstUnrec r with
    | none => rfl
    | some j =>
      simp only [Option.map_some', Option.some.injEq, List.length_cons]
      omega

/-- Full characterization of the lexer's success/failure: with enough
fuel, `tokenizeF` succeeds (ending in exactly one EOF token carrying
the offset one past the scanned text) iff every character is
recognized, and otherwise reports the unrecognizable-character error at
the offset of the first unrecognized character. -/
theorem tokenizeF_spec : ∀ (f : Nat) (s : List Char) (pos : Nat), s.length < f →
    (firstUnrec s = none →
      ∃ core, tokenizeF f s pos = some (.ok (core ++ [eofTok (pos + s.length)])) ∧
        ∀ t ∈ core, t.kind ≠ TokenKind.TK_EOF) ∧
    (∀ i, firstUnrec s = some i →
      tokenizeF f s pos = some (.error (.unrecognized (pos + i)))) := by
  intro f
  induction f with
  | zero => intro s pos h; omega
  | succ f ih =>
    intro s pos h
    match s with
    | [] =>
      refine ⟨fun _ => ⟨[], by simp [tokenizeF], by simp⟩,
        fun i hi => by simp [firstUnrec] at hi⟩
    | c :: rest =>
      simp only [List.length_cons] at h
      by_cases hsp : c_isspace c
      · have hrc : recognized c = true := by simp [recognized, hsp]
        have hfu : firstUnrec (c :: rest) = (firstUnrec rest).map (· + 1) := by
          simp [firstUnrec, hrc]
        have ihr := ih rest (pos + 1) (by omega)
        constructor
        · intro hnone
          rw [hfu] at hnone
          obtain ⟨core, hcore, hkinds⟩ := ihr.1 (map_add_eq_none hnone)
          have harith : pos + 1 + rest.length = pos + (rest.length + 1) := by omega
          rw [harith] at hcore
          exact ⟨core, by simp [tokenizeF, hsp, hcore], hkinds⟩
        · intro i hi
          rw [hfu] at hi
          cases hj : firstUnrec rest with
          | none => rw [hj] at hi; simp at hi
          | some j =>
            rw [hj] at hi
            simp only [Option.map_some', Option.some.injEq] at hi
            have hrec := ihr.2 j hj
            have harith : pos + 1 + j = pos + i := by omega
            rw [harith] at hrec
            simp [tokenizeF, hsp, hrec]
      · by_cases hop : c_isop c
        · have hrc : recognized c = true := by simp [recognized, hop]
          have hfu : firstUnrec (c :: rest) = (firstUnrec rest).map (· + 1) := by
            simp [firstUnrec, hrc]
          have ihr := ih rest (pos + 1) (by omega)
          constructor
          · intro hnone
            rw [hfu] at hnone
            obtain ⟨core, hcore, hkinds⟩ := ihr.1 (map_add_eq_none hnone)
            have harith : pos + 1 + rest.length = pos + (rest.length + 1) := by omega
            rw [harith] at hcore
            refine ⟨{ kind := .TK_RESERVED, val := 0, ch := c, pos := pos } :: core,
              by simp [tokenizeF, hsp, hop, hcore], ?_⟩
            intro t ht
            rcases List.mem_cons.mp ht with rfl | ht2
            · simp
            · exact hkinds t ht2
          · intro i hi
            rw [hfu] at hi
            cases hj : firstUnrec rest with
            | none => rw [hj] at hi; simp at hi
            | some j =>
              rw [hj] at hi
              simp only [Option.map_some', Option.some.injEq] at hi
              have hrec := ihr.2 j hj
              have harith : pos + 1 + j = pos + i := by omega
              rw [harith] at hrec
              simp [tokenizeF, hsp, hop, hrec]
        · by_cases hdg : c_isdigit c
          · have hrc : recognized c = true := by simp [recognized, hdg]
            have htw : ∀ d ∈ rest.takeWhile c_isdigit, recognized d = true := by
              intro d hd
              simp [recognized, mem_takeWhile_p rest d hd]
            have hsplit : rest.takeWhile c_isdigit ++ rest.dropWhile c_isdigit = rest :=
              List.takeWhile_append_dropWhile c_isdigit rest
            have hfu : firstUnrec (c :: rest) =
                (firstUnrec (rest.dropWhile c_isdigit)).map
                  (· + (1 + (rest.takeWhile c_isdigit).length)) := by
              have h1 : firstUnrec (c :: rest) = (firstUnrec rest).map (· + 1) := by
                simp [firstUnrec, hrc]
              have h2 : firstUnrec rest =
                  (firstUnrec (rest.dropWhile c_isdigit)).map
                    (· + (rest.takeWhile c_isdigit).length) := by
                conv_lhs => rw [← hsplit]
                exact firstUnrec_append_recognized _ _ htw
              rw [h1, h2]
              cases firstUnrec (rest.dropWhile c_isdigit) with
              | none => rfl
              | some j =>
                simp only [Option.map_some', Option.some.injEq]
                omega
            have hlensum : (rest.takeWhile c_isdigit).length +
                (rest.dropWhile c_isdigit).length = rest.length := by
              have := congrArg List.length hsplit
              rwa [List.length_append] at this
            have hlen : (rest.dropWhile c_isdigit).length < f := by
              have := length_dropWhile_le c_isdigit rest
              omega
            have ihr := ih (rest.dropWhile c_isdigit)
              (pos + 1 + (rest.takeWhile c_isdigit).length) hlen
            constructor
            · intro hnone
              rw [hfu] at hnone
              obtain ⟨core, hcore, hkinds⟩ := ihr.1 (map_add_eq_none hnone)
              have harith : pos + 1 + (rest.takeWhile c_isdigit).length +
                  (rest.dropWhile c_isdigit).length = pos + (rest.length + 1) := by
                omega
              rw [harith] at hcore
              refine ⟨{ kind := .TK_NUM,
                        val := toIntC (digitsToNat (c :: rest.takeWhile c_isdigit)),
                        ch := c, pos := pos } :: core,
                by simp [tokenizeF, hsp, hop, hdg, hcore], ?_⟩
              intro t ht
              rcases List.mem_cons.mp ht with rfl | ht2
              · simp
              · exact hkinds t ht2
            · intro i hi
              rw [hfu] at hi
              cases hj : firstUnrec (rest.dropWhile c_isdigit) with
              | none => rw [hj] at hi; simp at hi
              | some j =>
                rw [hj] at hi
                simp only [Option.map_some', Option.some.injEq] at hi
                have hrec := ihr.2 j hj
                have harith : pos + 1 + (rest.takeWhile c_isdigit).length + j =
                    pos + i := by omega
                rw [harith] at hrec
                simp [tokenizeF, hsp, hop, hdg, hrec]
          · have hrc : recognized c = false := by
              simp [recognized, hsp, hop, hdg]
            constructor
            · intro hnone
              simp [firstUnrec, hrc] at hnone
            · intro i hi
              simp only [firstUnrec, hrc, Bool.false_eq_true, if_false,
                Option.some.injEq] at hi
              have : pos + i = pos := by omega
              rw [this]
              simp [tokenizeF, hsp, hop, hdg]

theorem tokenize_eq_of {s : List Char} {x : Except CErr (List Token)}
    (h : tokenizeF (s.length + 1) s 0 = some x) : tokenize s = x := by
  simp [tokenize, h]

theorem tokenizeF_spaces : ∀ (f : Nat) (s : List Char) (pos : Nat), s.length < f →
    (∀ c ∈ s, c_isspace c = true) →
    tokenizeF f s pos = some (.ok [eofTok (pos + s.length)]) := by
  intro f
  induction f with
  | zero => intro s pos h _; omega
  | succ f ih =>
    intro s pos h hall
    match s with
    | [] => simp [tokenizeF]
    | c :: rest =>
      simp only [List.length_cons] at h
      have hc : c_isspace c = true := hall c (by simp)
      have hrest := ih rest (pos + 1) (by omega) (fun d hd => hall d (by simp [hd]))
      have harith : pos + 1 + rest.length = pos + (rest.length + 1) := by omega
      rw [harith] at hrest
      simp [tokenizeF, hc, hrest]

theorem option_get_eq {α : Type} {o : Option α} {x : α} (h : o = some x)
    (hs : o.isSome = true) : o.get hs = x := by
  subst h; rfl

/-- The result of `parseProg` is whatever answer `parseF` gives on the
standard fuel. -/
theorem parseProg_eq_of {ts : List Token} {x : Except CErr (Node × List Token)}
    (h : parseF (3 * ts.length + 4) .pexpr ts = some x) : parseProg ts = x :=
  option_get_eq h (parse_total ts)

/-- Parsing a token list that is just one EOF token fails inside
`expect_number` with the error at the EOF token's offset. -/
theorem parse_eof (t : Token) (ht : t.kind = .TK_EOF) :
    parseProg [t] = .error (.expectedNumber t.pos) := by
  apply parseProg_eq_of
  simp [parseF, consume, expect_number, ht]

theorem digit_not_space {c : Char} (h : c_isdigit c = true) : c_isspace c = false := by
  cases hcs : c_isspace c
  · rfl
  · simp only [c_isspace, Bool.or_eq_true, decide_eq_true_eq] at hcs
    rcases hcs with ((((h1 | h1) | h1) | h1) | h1) | h1 <;> subst h1 <;>
      exact absurd h (by decide)

theorem digit_not_op {c : Char} (h : c_isdigit c = true) : c_isop c = false := by
  cases hcs : c_isop c
  · rfl
  · simp only [c_isop, Bool.or_eq_true, decide_eq_true_eq] at hcs
    rcases hcs with ((((h1 | h1) | h1) | h1) | h1) | h1 <;> subst h1 <;>
      exact absurd h (by decide)

/-- An all-digit input becomes exactly one number token (value via
`strtol` semantics) followed by the EOF token: `tokenize` succeeds no
matter how large the literal is. -/
theorem tokenize_digits (c : Char) (ds : List Char) (hc : c_isdigit c = true)
    (hds : ∀ d ∈ ds, c_isdigit d = true) :
    tokenize (c :: ds) =
      .ok [{ kind := .TK_NUM, val := toIntC (digitsToNat (c :: ds)), ch := c, pos := 0 },
           eofTok (ds.length + 1)] := by
  have hsp := digit_not_space hc
  have hop := digit_not_op hc
  have htw : ds.takeWhile c_isdigit = ds := takeWhile_all ds hds
  have hdw : ds.dropWhile c_isdigit = [] := dropWhile_all ds hds
  have hnil : tokenizeF (ds.length + 1) ([] : List Char) (0 + 1 + ds.length) =
      some (.ok [eofTok (ds.length + 1)]) := by
    have : 0 + 1 + ds.length = ds.length + 1 := by omega
    rw [this]
    simp [tokenizeF]
  apply tokenize_eq_of
  show tokenizeF (ds.length + 1 + 1) (c :: ds) 0 = _
  simp [tokenizeF, hsp, hop, hc, htw, hdw, hnil]

/-- For values below `2^31` (`INT_MAX + 1`) the `strtol`-plus-`int`
conversion is the identity. -/
theorem toIntC_exact {n : Nat} (h : n < 2 ^ 31) : toIntC n = (n : Int) := by
  simp only [toIntC]
  have h1 : min n (2 ^ 63 - 1) = n := by omega
  rw [h1]
  have h2 : n % 2 ^ 32 = n := Nat.mod_eq_of_lt (by omega)
  rw [h2, if_pos (by omega)]

/-- C1: for every well-formed input (a string whose tokenization
succeeds and whose tokens before the final EOF token derive from the
expression grammar `GE` with mathematical value `v` — standard
precedence, left-associativity, division truncating toward zero),
parsing with `expr` terminates without error, consumes all tokens up to
EOF, and the resulting AST evaluates by exact integer arithmetic to
`v`. -/
theorem c1_wellformed_input_parses_and_evaluates
    (s : List Char) (core : List Token) (t : Token) (v : Int)
    (htok : tokenize s = .ok (core ++ [t])) (heof : t.kind = .TK_EOF)
    (hwf : GE core v) :
    ∃ ast, parseProg (core ++ [t]) = .ok (ast, [t]) ∧ evalNode ast = v := by
  have hse : stopsExpr [t] := by simp [stopsExpr, heof]
  have hsm : stopsMul [t] := by simp [stopsMul, heof]
  obtain ⟨ast, hp, he⟩ := (snd_all core.length).2.2.2.2 core v hwf le_rfl [t]
    (3 * (core ++ [t]).length + 4) hse hsm
    (by simp only [List.length_append, List.length_cons, List.length_nil]; omega)
  exact ⟨ast, parseProg_eq_of hp, he⟩

/-- Witness for C1 at the spec's three examples: `"2+3*4"` parses and
evaluates to 14, `"8-3-2"` to 3, and `"(2+3)*4"` to 20. -/
theorem c1_wellformed_input_parses_and_evaluates_witness :
    (∃ ast, parseProg [⟨.TK_NUM, 2, '2', 0⟩, ⟨.TK_RESERVED, 0, '+', 1⟩,
        ⟨.TK_NUM, 3, '3', 2⟩, ⟨.TK_RESERVED, 0, '*', 3⟩, ⟨.TK_NUM, 4, '4', 4⟩,
        eofTok 5] = .ok (ast, [eofTok 5]) ∧ evalNode ast = 14) ∧
    (∃ ast, parseProg [⟨.TK_NUM, 8, '8', 0⟩, ⟨.TK_RESERVED, 0, '-', 1⟩,
        ⟨.TK_NUM, 3, '3', 2⟩, ⟨.TK_RESERVED, 0, '-', 3⟩, ⟨.TK_NUM, 2, '2', 4⟩,
        eofTok 5] = .ok (ast, [eofTok 5]) ∧ evalNode ast = 3) ∧
    (∃ ast, parseProg [⟨.TK_RESERVED, 0, '(', 0⟩, ⟨.TK_NUM, 2, '2', 1⟩,
        ⟨.TK_RESERVED, 0, '+', 2⟩, ⟨.TK_NUM, 3, '3', 3⟩, ⟨.TK_RESERVED, 0, ')', 4⟩,
        ⟨.TK_RESERVED, 0, '*', 5⟩, ⟨.TK_NUM, 4, '4', 6⟩,
        eofTok 7] = .ok (ast, [eofTok 7]) ∧ evalNode ast = 20) := by
  refine ⟨?_, ?_, ?_⟩
  · have hge : GE [⟨.TK_NUM, 2, '2', 0⟩, ⟨.TK_RESERVED, 0, '+', 1⟩,
        ⟨.TK_NUM, 3, '3', 2⟩, ⟨.TK_RESERVED, 0, '*', 3⟩, ⟨.TK_NUM, 4, '4', 4⟩] 14 := by
      have g2 : GP [⟨.TK_NUM, 2, '2', 0⟩] 2 := GP.num _ rfl
      have g3 : GP [⟨.TK_NUM, 3, '3', 2⟩] 3 := GP.num _ rfl
      have g4 : GP [⟨.TK_NUM, 4, '4', 4⟩] 4 := GP.num _ rfl
      have m34 : GM [⟨.TK_NUM, 3, '3', 2⟩, ⟨.TK_RESERVED, 0, '*', 3⟩,
          ⟨.TK_NUM, 4, '4', 4⟩] 12 :=
        GM.mk _ _ 3 12 g3
          (GMt.mulStep ⟨.TK_RESERVED, 0, '*', 3⟩ _ [] 4 12 3 rfl rfl g4 (GMt.nil 12))
      exact GE.mk [⟨.TK_NUM, 2, '2', 0⟩] _ 2 14 (GM.mk _ [] 2 2 g2 (GMt.nil 2))
        (GEt.addStep ⟨.TK_RESERVED, 0, '+', 1⟩ _ [] 12 14 2 rfl rfl m34 (GEt.nil 14))
    exact c1_wellformed_input_parses_and_evaluates ['2', '+', '3', '*', '4'] _
      (eofTok 5) 14 (by decide) rfl hge
  · have hge : GE [⟨.TK_NUM, 8, '8', 0⟩, ⟨.TK_RESERVED, 0, '-', 1⟩,
        ⟨.TK_NUM, 3, '3', 2⟩, ⟨.TK_RESERVED, 0, '-', 3⟩, ⟨.TK_NUM, 2, '2', 4⟩] 3 := by
      have g8 : GP [⟨.TK_NUM, 8, '8', 0⟩] 8 := GP.num _ rfl
      have g3 : GP [⟨.TK_NUM, 3, '3', 2⟩] 3 := GP.num _ rfl
      have g2 : GP [⟨.TK_NUM, 2, '2', 4⟩] 2 := GP.num _ rfl
      exact GE.mk [⟨.TK_NUM, 8, '8', 0⟩] _ 8 3 (GM.mk _ [] 8 8 g8 (GMt.nil 8))
        (GEt.subStep ⟨.TK_RESERVED, 0, '-', 1⟩ [⟨.TK_NUM, 3, '3', 2⟩] _ 3 3 8 rfl rfl
          (GM.mk _ [] 3 3 g3 (GMt.nil 3))
          (GEt.subStep ⟨.TK_RESERVED, 0, '-', 3⟩ [⟨.TK_NUM, 2, '2', 4⟩] [] 2 3 5
            rfl rfl (GM.mk _ [] 2 2 g2 (GMt.nil 2)) (GEt.nil 3)))
    exact c1_wellformed_input_parses_and_evaluates ['8', '-', '3', '-', '2'] _
      (eofTok 5) 3 (by decide) rfl hge
  · have hge : GE [⟨.TK_RESERVED, 0, '(', 0⟩, ⟨.TK_NUM, 2, '2', 1⟩,
        ⟨.TK_RESERVED, 0, '+', 2⟩, ⟨.TK_NUM, 3, '3', 3⟩, ⟨.TK_RESERVED, 0, ')', 4⟩,
        ⟨.TK_RESERVED, 0, '*', 5⟩, ⟨.TK_NUM, 4, '4', 6⟩] 20 := by
      have g2 : GP [⟨.TK_NUM, 2, '2', 1⟩] 2 := GP.num _ rfl
      have g3 : GP [⟨.TK_NUM, 3, '3', 3⟩] 3 := GP.num _ rfl
      have g4 : GP [⟨.TK_NUM, 4, '4', 6⟩] 4 := GP.num _ rfl
      have ge23 : GE [⟨.TK_NUM, 2, '2', 1⟩, ⟨.TK_RESERVED, 0, '+', 2⟩,
          ⟨.TK_NUM, 3, '3', 3⟩] 5 :=
        GE.mk [⟨.TK_NUM, 2, '2', 1⟩] _ 2 5 (GM.mk _ [] 2 2 g2 (GMt.nil 2))
          (GEt.addStep ⟨.TK_RESERVED, 0, '+', 2⟩ _ [] 3 5 2 rfl rfl
            (GM.mk _ [] 3 3 g3 (GMt.nil 3)) (GEt.nil 5))
      have gp : GP [⟨.TK_RESERVED, 0, '(', 0⟩, ⟨.TK_NUM, 2, '2', 1⟩,
          ⟨.TK_RESERVED, 0, '+', 2⟩, ⟨.TK_NUM, 3, '3', 3⟩,
          ⟨.TK_RESERVED, 0, ')', 4⟩] 5 :=
        GP.paren ⟨.TK_RESERVED, 0, '(', 0⟩ ⟨.TK_RESERVED, 0, ')', 4⟩ _ 5
          rfl rfl rfl rfl ge23
      exact GE.mk _ [] 20 20
        (GM.mk _ [⟨.TK_RESERVED, 0, '*', 5⟩, ⟨.TK_NUM, 4, '4', 6⟩] 5 20 gp
          (GMt.mulStep ⟨.TK_RESERVED, 0, '*', 5⟩ _ [] 4 20 5 rfl rfl g4 (GMt.nil 20)))
        (GEt.nil 20)
    exact c1_wellformed_input_parses_and_evaluates ['(', '2', '+', '3', ')', '*', '4'] _
      (eofTok 7) 20 (by decide) rfl hge

/-- C2: the code `gen` emits for any (division-safe) AST node, run from
any machine state, faults nowhere, pushes exactly one value — the
node's — on top of the stack and consumes nothing that was on the stack
before; in particular from the initial empty stack the root node's code
leaves exactly the one result value on the evaluation stack. -/
theorem c2_gen_stack_effect (node : Node) (st : MState) (h : divSafe node = true) :
    (∃ st', runInstrs (gen node) st = some st' ∧
      st'.stack = evalNode node :: st.stack) ∧
    (∃ st', runInstrs (gen node) initState = some st' ∧
      st'.stack = [evalNode node]) := by
  refine ⟨gen_stack node h st, ?_⟩
  obtain ⟨st', h1, h2⟩ := gen_stack node h initState
  exact ⟨st', h1, by simpa [initState] using h2⟩

/-- Witness for C2 at the node for `7/2` and a state with a non-empty
starting stack. -/
theorem c2_gen_stack_effect_witness :
    divSafe (Node.binary .ND_DIV (.num 7) (.num 2)) = true ∧
    ((∃ st', runInstrs (gen (Node.binary .ND_DIV (.num 7) (.num 2)))
        ⟨[5], 1, 2, 3⟩ = some st' ∧
        st'.stack = evalNode (Node.binary .ND_DIV (.num 7) (.num 2)) :: [5]) ∧
     (∃ st', runInstrs (gen (Node.binary .ND_DIV (.num 7) (.num 2)))
        initState = some st' ∧
        st'.stack = [evalNode (Node.binary .ND_DIV (.num 7) (.num 2))])) :=
  ⟨by decide, c2_gen_stack_effect (Node.binary .ND_DIV (.num 7) (.num 2))
    ⟨[5], 1, 2, 3⟩ (by decide)⟩

/-- C3: `tokenize` is total: on inputs whose characters are all
recognized (whitespace, punctuators, digits) it returns a non-empty
token sequence whose final token is the single EOF token (no other
token is EOF, and the EOF token carries the input length as offset);
otherwise it fails with the unrecognized-character error at the byte
offset of the first character that is none of these
(`firstUnrec`). -/
theorem c3_tokenize_total (s : List Char) :
    (firstUnrec s = none →
      ∃ core, tokenize s = .ok (core ++ [eofTok s.length]) ∧
        ∀ t ∈ core, t.kind ≠ TokenKind.TK_EOF) ∧
    (∀ i, firstUnrec s = some i → tokenize s = .error (.unrecognized i)) := by
  have hs := tokenizeF_spec (s.length + 1) s 0 (by omega)
  constructor
  · intro h
    obtain ⟨core, hc, hk⟩ := hs.1 h
    rw [Nat.zero_add] at hc
    exact ⟨core, tokenize_eq_of hc, hk⟩
  · intro i hi
    have h2 := hs.2 i hi
    rw [Nat.zero_add] at h2
    exact tokenize_eq_of h2

/-- Witness for C3: `"1+"` lexes into tokens ending with EOF, and
`"1+a"` fails at offset 2 (the `a`). -/
theorem c3_tokenize_total_witness :
    (∃ core, tokenize ['1', '+'] = .ok (core ++ [eofTok 2]) ∧
      ∀ t ∈ core, t.kind ≠ TokenKind.TK_EOF) ∧
    tokenize ['1', '+', 'a'] = .error (.unrecognized 2) :=
  ⟨(c3_tokenize_total ['1', '+']).1 (by decide),
   (c3_tokenize_total ['1', '+', 'a']).2 2 (by decide)⟩

/-- C4: the code for a division node sign-extends the accumulator with
`cqo` immediately before `idiv`, and division truncates toward zero: the
whole pipeline on `"7/2"` produces code that computes 3. -/
theorem c4_division_cqo_idiv_truncates :
    execMain ['7', '/', '2'] = some 3 ∧
    ∀ lhs rhs : Node, gen (.binary .ND_DIV lhs rhs) =
      gen lhs ++ gen rhs ++ [.popRdi, .popRax, .cqo, .idivRdi, .pushRax] := by
  constructor
  · decide
  · intro lhs rhs
    simp [gen, opInstrs]

/-- C5: after the top-level `expr` returns, `main` never checks
`at_eof`: for `"1+2)"` and `"1 2"` the parse succeeds leaving unread
non-EOF tokens behind, and the compiler still emits assembly for the
parsed prefix and succeeds (exit status 0). -/
theorem c5_trailing_tokens_ignored :
    parseProg [⟨.TK_NUM, 1, '1', 0⟩, ⟨.TK_RESERVED, 0, '+', 1⟩, ⟨.TK_NUM, 2, '2', 2⟩,
        ⟨.TK_RESERVED, 0, ')', 3⟩, eofTok 4] =
      .ok (.binary .ND_ADD (.num 1) (.num 2), [⟨.TK_RESERVED, 0, ')', 3⟩, eofTok 4]) ∧
    compileMain ['1', '+', '2', ')'] =
      .ok [.pushImm 1, .pushImm 2, .popRdi, .popRax, .addRaxRdi, .pushRax,
        .popRax, .ret] ∧
    parseProg [⟨.TK_NUM, 1, '1', 0⟩, ⟨.TK_NUM, 2, '2', 2⟩, eofTok 3] =
      .ok (.num 1, [⟨.TK_NUM, 2, '2', 2⟩, eofTok 3]) ∧
    compileMain ['1', ' ', '2'] = .ok [.pushImm 1, .popRax, .ret] :=
  ⟨by decide, by decide, by decide, by decide⟩

/-- C6 counterexample: on the literal `4294967296` (`2^32`, which
exceeds the 32-bit `int` width) `tokenize` does NOT fail — it succeeds,
and the token's value has silently wrapped to 0 (`strtol` into a `long`
followed by the `long → int` truncation). -/
theorem c6_overflow_literal_counterexample :
    tokenize ['4', '2', '9', '4', '9', '6', '7', '2', '9', '6'] =
      .ok [{ kind := .TK_NUM, val := 0, ch := '4', pos := 0 }, eofTok 10] := by
  decide

/-- C6 (amended): `tokenize` never fails on an oversized literal; a
maximal digit run becomes one number token whose value is the decimal
value clamped by `strtol` to `LONG_MAX` and then truncated to 32-bit
two's-complement (`toIntC`); for literals below `2^31` the value is
exactly the decimal integer the run denotes. -/
theorem c6_amended_literal_values (c : Char) (ds : List Char)
    (hc : c_isdigit c = true) (hds : ∀ d ∈ ds, c_isdigit d = true) :
    tokenize (c :: ds) =
      .ok [{ kind := .TK_NUM, val := toIntC (digitsToNat (c :: ds)), ch := c, pos := 0 },
           eofTok (ds.length + 1)] ∧
    (digitsToNat (c :: ds) < 2 ^ 31 →
      toIntC (digitsToNat (c :: ds)) = (digitsToNat (c :: ds) : Int)) :=
  ⟨tokenize_digits c ds hc hds, fun h => toIntC_exact h⟩

/-- Witness for the amended C6 at the in-range literal `"72"`. -/
theorem c6_amended_literal_values_witness :
    tokenize ['7', '2'] =
      .ok [{ kind := .TK_NUM, val := toIntC (digitsToNat ['7', '2']), ch := '7',
             pos := 0 }, eofTok 2] ∧
    (digitsToNat ['7', '2'] < 2 ^ 31 →
      toIntC (digitsToNat ['7', '2']) = (digitsToNat ['7', '2'] : Int)) :=
  c6_amended_literal_values '7' ['2'] (by decide) (by decide)

/-- C7: the input `"1+"` fails with the expected-number error at offset
2 (one past the `+`, the EOF token's offset); in the model the `.error`
result is `main` exiting with status 1 before any assembly reaches
stdout. -/
theorem c7_dangling_plus_fails :
    compileMain ['1', '+'] = .error (.expectedNumber 2) := by
  decide

/-- C8: the input `"(1+2"` fails inside `expect(')')` with the
expected-character error for `)` positioned at end of input (offset 4,
the EOF token's offset). -/
theorem c8_unbalanced_paren_fails :
    compileMain ['(', '1', '+', '2'] = .error (.expectedChar ')' 4) := by
  decide

/-- C9: the parser terminates on every finite token sequence: with fuel
`3·length + 4` (one unit per call or loop iteration) `parseF` always
delivers an answer — success or a parse error, never the out-of-fuel
`none` — and `consume` never matches (hence never advances past) an EOF
token. -/
theorem c9_parser_terminates :
    (∀ ts : List Token, (parseF (3 * ts.length + 4) .pexpr ts).isSome = true) ∧
    (∀ (op : Char) (t : Token) (rest : List Token), t.kind = .TK_EOF →
      consume op (t :: rest) = none) := by
  refine ⟨parse_total, ?_⟩
  intro op t rest ht
  simp [consume, ht]

/-- Witness for C9 on the empty token list and an EOF token. -/
theorem c9_parser_terminates_witness :
    (parseF (3 * ([] : List Token).length + 4) .pexpr []).isSome = true ∧
    consume '+' [eofTok 0] = none :=
  ⟨c9_parser_terminates.1 [], c9_parser_terminates.2 '+' (eofTok 0) [] rfl⟩

/-- C10: on the empty input and on any all-whitespace input, `tokenize`
returns just the EOF token (at offset = input length) and the compiler
fails with the expected-number error at that offset — the `.error`
result is exit status 1 with no assembly written; an empty expression
is never compiled. -/
theorem c10_blank_input_rejected (s : List Char) (h : ∀ c ∈ s, c_isspace c = true) :
    tokenize s = .ok [eofTok s.length] ∧
    compileMain s = .error (.expectedNumber s.length) := by
  have htok : tokenizeF (s.length + 1) s 0 = some (.ok [eofTok (0 + s.length)]) :=
    tokenizeF_spaces (s.length + 1) s 0 (by omega) h
  rw [Nat.zero_add] at htok
  have ht : tokenize s = .ok [eofTok s.length] := tokenize_eq_of htok
  refine ⟨ht, ?_⟩
  have hparse : parseProg [eofTok s.length] = .error (.expectedNumber s.length) :=
    parse_eof (eofTok s.length) rfl
  simp [compileMain, ht, hparse]

/-- Witness for C10 at the empty input and a two-space input. -/
theorem c10_blank_input_rejected_witness :
    (tokenize [] = .ok [eofTok 0] ∧
      compileMain [] = .error (.expectedNumber 0)) ∧
    (tokenize [' ', ' '] = .ok [eofTok 2] ∧
      compileMain [' ', ' '] = .error (.expectedNumber 2)) :=
  ⟨c10_blank_input_rejected [] (by simp),
   c10_blank_input_rejected [' ', ' '] (by decide)⟩

end NineCC

